import Mathlib

/-!
Verification of the HSF-Simulation reweighting notebook
(`src/reweighting/reweighting.ipynb`).

The notebook draws toy "data" and "MC" samples, mixes them with a linear
transform, labels them (0 = data, 1 = MC), shuffles and splits the pooled
sample, trains a sigmoid classifier on the labels, computes odds-ratio
weights `w = y / (1 - y)` from the classifier output on the MC test events,
applies `1 / w` as histogram weights and reports the effective sample size
`(Σ w)² / Σ w²`.

Numeric values are embedded as rationals (`ℚ`); numpy arrays as lists; the
in-place numpy shuffle as a Fisher-Yates pass driven by an oracle of random
draws.  The trained classifier itself is library code, so the perfectly
calibrated classifier that the spec reasons about is modelled from the spec
on empirical per-feature-point counts of data and MC test events.
-/

namespace HSF

/-! ## The odds-ratio weight transform (cell-23: `weights = weights / (1 - weights)`) -/

/-- The per-event odds-ratio transform applied to a classifier output,
from cell-23: `weights / (1 - weights)`. -/
def weight (y : ℚ) : ℚ := y / (1 - y)

/-- Elementwise application of `weight` to the vector of classifier outputs,
embedding the numpy broadcast `weights = weights / (1 - weights)` of cell-23. -/
def weightsOf (ys : List ℚ) : List ℚ := ys.map weight

/-- C2: `w(y) = y/(1-y)` is strictly increasing on (0,1); `w(1/2) = 1`;
`w` tends to 0 as `y` tends to 0 from within (0,1) (epsilon-delta form) and
grows without bound as `y` tends to 1 from below (threshold form). -/
theorem weight_monotone_center_and_limits :
    (∀ y1 y2 : ℚ, 0 < y1 → y1 < 1 → 0 < y2 → y2 < 1 → y1 < y2 → weight y1 < weight y2) ∧
    weight (1 / 2) = 1 ∧
    (∀ ε : ℚ, 0 < ε → ∃ δ : ℚ, 0 < δ ∧ ∀ y : ℚ, 0 < y → y < δ → 0 < weight y ∧ weight y < ε) ∧
    (∀ B : ℚ, ∃ δ : ℚ, 0 < δ ∧ ∀ y : ℚ, 1 - δ < y → y < 1 → B < weight y) := by
  refine ⟨?_, ?_, ?_, ?_⟩
  · intro y1 y2 h1 h2 h3 h4 hlt
    unfold weight
    rw [div_lt_div_iff₀ (by linarith) (by linarith)]
    nlinarith
  · norm_num [weight]
  · intro ε hε
    refine ⟨min (ε / 2) (1 / 2), by positivity, ?_⟩
    intro y hy hyδ
    have hy2 : y < 1 / 2 := lt_of_lt_of_le hyδ (min_le_right _ _)
    have hyε : y < ε / 2 := lt_of_lt_of_le hyδ (min_le_left _ _)
    have hden : (0:ℚ) < 1 - y := by linarith
    constructor
    · exact div_pos hy hden
    · have : weight y < 2 * y := by
        unfold weight
        rw [div_lt_iff₀ hden]
        nlinarith
      linarith
  · intro B
    set b : ℚ := max B 0 + 1 with hb
    have hbpos : (0:ℚ) < b := by positivity
    have hbB : B < b := lt_of_le_of_lt (le_max_left B 0) (by simp [hb])
    refine ⟨1 / (2 * b), by positivity, ?_⟩
    intro y hylo hyhi
    have hden : (0:ℚ) < 1 - y := by linarith
    have hsmall : 1 - y < 1 / (2 * b) := by linarith
    have hyhalf : 1 / 2 ≤ y := by
      have h2b : (1:ℚ) ≤ b := by simp [hb]
      have : 1 / (2 * b) ≤ 1 / 2 := by
        apply one_div_le_one_div_of_le <;> linarith
      linarith
    have hprod : b * (1 - y) < b * (1 / (2 * b)) := by
      exact mul_lt_mul_of_pos_left hsmall hbpos
    have hhalf : b * (1 / (2 * b)) = 1 / 2 := by
      field_simp
      ring
    have hbw : b < weight y := by
      unfold weight
      rw [lt_div_iff₀ hden]
      nlinarith
    linarith

/-- Witness for C2: the monotone part at `y1 = 1/4 < y2 = 1/3`. -/
theorem weight_monotone_center_and_limits_witness :
    weight (1 / 4) < weight (1 / 3) := by
  have h := weight_monotone_center_and_limits.1 (1 / 4) (1 / 3)
    (by norm_num) (by norm_num) (by norm_num) (by norm_num) (by norm_num)
  exact h

/-- C5: the odds-ratio transform is applied with no clipping, calibration or
stabilization: for every `y < 1` the divisor `1 - y` is nonzero and the
computed weight satisfies the defining division, the weight is unbounded as
`y` ranges over (0,1) (so no clipping bounds it), and at `y = 1` the divisor
vanishes and the code still divides: `weight 1` is literally `1 / 0`. -/
theorem weight_division_unguarded :
    (∀ y : ℚ, y < 1 → 1 - y ≠ 0 ∧ weight y * (1 - y) = y) ∧
    (∀ B : ℚ, ∃ y : ℚ, 0 < y ∧ y < 1 ∧ B < weight y) ∧
    ((1:ℚ) - 1 = 0 ∧ weight 1 = 1 / 0) := by
  refine ⟨?_, ?_, by norm_num, by norm_num [weight]⟩
  · intro y hy
    have hden : (1:ℚ) - y ≠ 0 := by intro h; linarith [sub_eq_zero.mp h]
    exact ⟨hden, by rw [weight, div_mul_cancel₀ _ hden]⟩
  · intro B
    set b : ℚ := max B 0 + 1 with hb
    have hbpos : (0:ℚ) < b := by positivity
    have hbB : B < b := lt_of_le_of_lt (le_max_left B 0) (by simp [hb])
    refine ⟨b / (b + 1), by positivity, ?_, ?_⟩
    · rw [div_lt_one (by positivity)]; linarith
    · have hb1 : (b:ℚ) + 1 ≠ 0 := by positivity
      have hden : 1 - b / (b + 1) = 1 / (b + 1) := by
        field_simp
      have hwb : weight (b / (b + 1)) = b := by
        rw [weight, hden]
        field_simp
      rw [hwb]; exact hbB

/-- C10: for every classifier output strictly inside the sigmoid's open range
(0,1), the computed weight is strictly positive, nonzero, and the applied
histogram weight `1 / w` is strictly positive. -/
theorem weight_pos_inv_pos (y : ℚ) (h0 : 0 < y) (h1 : y < 1) :
    0 < weight y ∧ weight y ≠ 0 ∧ 0 < 1 / weight y := by
  have hden : (0:ℚ) < 1 - y := by linarith
  have hw : 0 < weight y := div_pos h0 hden
  exact ⟨hw, ne_of_gt hw, by positivity⟩

/-- Witness for C10 at `y = 1/2`. -/
theorem weight_pos_inv_pos_witness :
    0 < weight (1 / 2) ∧ weight (1 / 2) ≠ 0 ∧ 0 < 1 / weight (1 / 2) :=
  weight_pos_inv_pos (1 / 2) (by norm_num) (by norm_num)

/-! ## The calibrated classifier on the test sample

The notebook labels events `0 = data`, `1 = MC` (cell-10), fits a sigmoid
network with binary cross-entropy to predict that label (cell-16, cell-20),
and scores the MC half of the test sample (cell-23).  The trained network is
library code, so the spec's "perfectly calibrated classifier" (section 4.1)
is modelled on the empirical composition of the test sample: at each feature
point we record how many data events and how many MC events sit there. -/

/-- Modelled from the spec: the empirical composition of a test sample over a
feature space `X` — `nData x` data events (label 0) and `nMC x` MC events
(label 1) at feature point `x` (cell-10 fixes the label convention). -/
structure TestCounts (X : Type) where
  nData : X → ℕ
  nMC : X → ℕ

/-- Modelled from the spec: the output of the perfectly calibrated classifier
at feature point `x`.  The network is fit to the origin label (cell-16:
`Y_train = training_sample[:, -1]`; cell-10: label 1 = MC) with a sigmoid
output and binary cross-entropy (cell-20), so the calibrated output is the
fraction of events at `x` that carry label 1, i.e. that are MC; the theorem
`weights_odds_of_predicted_mc_probability` proves this value is the unique
minimizer of the per-point expected binary cross-entropy. -/
def calOutput {X : Type} (t : TestCounts X) (x : X) : ℚ :=
  (t.nMC x : ℚ) / ((t.nData x : ℚ) + (t.nMC x : ℚ))

/-- The phrase of the claim under test, rendered as the spec words it: the
probability that an event at feature point `x` "is data (label 0)", i.e. the
fraction of events at `x` that are data. -/
def specProbData {X : Type} (t : TestCounts X) (x : X) : ℚ :=
  (t.nData x : ℚ) / ((t.nData x : ℚ) + (t.nMC x : ℚ))

/-- The weight the notebook computes for an event at feature point `x` when
the classifier is perfectly calibrated: cell-23 applied to `calOutput`. -/
def calWeight {X : Type} (t : TestCounts X) (x : X) : ℚ :=
  weight (calOutput t x)

/-- Total number of data events in the test sample. -/
def totalData {X : Type} [Fintype X] (t : TestCounts X) : ℕ := ∑ x, t.nData x

/-- Total number of MC events in the test sample. -/
def totalMC {X : Type} [Fintype X] (t : TestCounts X) : ℕ := ∑ x, t.nMC x

/-- The conditional density `P(x | data)`: the fraction of the data events
that sit at feature point `x`. -/
def condData {X : Type} [Fintype X] (t : TestCounts X) (x : X) : ℚ :=
  (t.nData x : ℚ) / (totalData t : ℚ)

/-- The conditional density `P(x | MC)`: the fraction of the MC events that
sit at feature point `x`. -/
def condMC {X : Type} [Fintype X] (t : TestCounts X) (x : X) : ℚ :=
  (t.nMC x : ℚ) / (totalMC t : ℚ)

/-- A concrete two-point test sample: at feature point `false` there are 3
data events and 1 MC event; at `true`, 1 data event and 3 MC events. -/
def exCounts : TestCounts Bool :=
  { nData := fun b => if b then 1 else 3
    nMC := fun b => if b then 3 else 1 }

/-- Helper: under calibration the computed weight at `x` is the ratio of MC
to data counts at `x` — the MC/data odds, not the data/MC odds. -/
theorem calWeight_eq_mc_over_data {X : Type} (t : TestCounts X) (x : X)
    (hd : 0 < t.nData x) :
    calWeight t x = (t.nMC x : ℚ) / (t.nData x : ℚ) := by
  have hdq : (0:ℚ) < (t.nData x : ℚ) := by exact_mod_cast hd
  have hmq : (0:ℚ) ≤ (t.nMC x : ℚ) := by positivity
  have hsum : (0:ℚ) < (t.nData x : ℚ) + (t.nMC x : ℚ) := by linarith
  unfold calWeight weight calOutput
  have h1 : 1 - (t.nMC x : ℚ) / ((t.nData x : ℚ) + (t.nMC x : ℚ)) =
      (t.nData x : ℚ) / ((t.nData x : ℚ) + (t.nMC x : ℚ)) := by
    field_simp
  rw [h1, div_div_div_cancel_right₀]
  exact ne_of_gt hsum

/-- Helper: the strict pointwise minimality of binary cross-entropy at the
calibrated value.  With `d` data events (label 0, loss `-log (1 - y)`) and
`m` MC events (label 1, loss `-log y`) at one feature point, the total loss
is strictly smaller at `c = m / (d + m)` than at any other `y` in (0,1). -/
theorem bce_strict_min (d m y c : ℝ) (hd : 0 < d) (hm : 0 < m)
    (hy0 : 0 < y) (hy1 : y < 1) (hc : c = m / (d + m)) (hne : y ≠ c) :
    d * (-Real.log (1 - c)) + m * (-Real.log c) <
      d * (-Real.log (1 - y)) + m * (-Real.log y) := by
  have hdm : (0:ℝ) < d + m := by linarith
  have hc0 : 0 < c := by rw [hc]; positivity
  have hc1 : c < 1 := by rw [hc, div_lt_one hdm]; linarith
  have h1y : (0:ℝ) < 1 - y := by linarith
  have h1c : (0:ℝ) < 1 - c := by linarith
  have e1c : 1 - c = d / (d + m) := by rw [hc]; field_simp
  have e1 : d * ((1 - y) / (1 - c)) = (1 - y) * (d + m) := by
    rw [e1c]; field_simp
  have e2 : m * (y / c) = y * (d + m) := by
    rw [hc]; field_simp
  have hA : 1 - (1 - y) / (1 - c) ≤ Real.log (1 - c) - Real.log (1 - y) := by
    have h := Real.log_le_sub_one_of_pos (x := (1 - y) / (1 - c)) (by positivity)
    rw [Real.log_div (by linarith) (by linarith)] at h
    linarith
  have hB : 1 - y / c < Real.log c - Real.log y := by
    have hyc : y / c ≠ 1 := by
      intro h
      exact hne ((div_eq_one_iff_eq (ne_of_gt hc0)).mp h)
    have h := Real.log_lt_sub_one_of_pos (by positivity) hyc
    rw [Real.log_div (ne_of_gt hy0) (ne_of_gt hc0)] at h
    linarith
  have key1 : d - (1 - y) * (d + m) ≤ d * (Real.log (1 - c) - Real.log (1 - y)) := by
    have h := mul_le_mul_of_nonneg_left hA hd.le
    nlinarith [e1]
  have key2 : m - y * (d + m) < m * (Real.log c - Real.log y) := by
    have h := (mul_lt_mul_left hm).mpr hB
    nlinarith [e2]
  nlinarith [key1, key2]

/-- C1 (corrected, counterexample): the calibrated classifier's output is not
the probability that the event is data.  In the concrete test sample
`exCounts`, at feature point `false` the calibrated output is 1/4 (one event
in four there is MC, the fit target label 1) while the fraction of data
events there is 3/4. -/
theorem calibrated_output_is_not_data_probability :
    calOutput exCounts false ≠ specProbData exCounts false := by
  norm_num [calOutput, specProbData, exCounts]

/-- C1 (amended): every scored event's weight is `y / (1 - y)` applied to the
classifier output for that event, and under perfect calibration that output
`y` is the predicted probability that the event is MC (label 1), not data:
the complement `1 - y` is the data fraction, and the calibrated output is the
unique minimizer of the per-point expected binary cross-entropy that the
classifier is trained with. -/
theorem weights_odds_of_predicted_mc_probability :
    (∀ ys : List ℚ, ∀ i : ℕ, (weightsOf ys)[i]? = (ys[i]?).map weight) ∧
    (∀ (X : Type) (t : TestCounts X) (x : X), 0 < t.nData x → 0 < t.nMC x →
      calOutput t x + specProbData t x = 1 ∧
      (∀ y : ℝ, 0 < y → y < 1 → y ≠ (calOutput t x : ℝ) →
        (t.nData x : ℝ) * (-Real.log (1 - (calOutput t x : ℝ))) +
          (t.nMC x : ℝ) * (-Real.log (calOutput t x : ℝ)) <
        (t.nData x : ℝ) * (-Real.log (1 - y)) + (t.nMC x : ℝ) * (-Real.log y))) := by
  constructor
  · intro ys i
    simp [weightsOf]
  · intro X t x hd hm
    have hdq : (0:ℚ) < (t.nData x : ℚ) := by exact_mod_cast hd
    have hmq : (0:ℚ) < (t.nMC x : ℚ) := by exact_mod_cast hm
    constructor
    · unfold calOutput specProbData
      rw [div_add_div_same]
      rw [show (t.nMC x : ℚ) + (t.nData x : ℚ) = (t.nData x : ℚ) + (t.nMC x : ℚ) from
        add_comm _ _]
      exact div_self (by linarith)
    · intro y hy0 hy1 hne
      apply bce_strict_min
      · exact_mod_cast hd
      · exact_mod_cast hm
      · exact hy0
      · exact hy1
      · push_cast [calOutput]
        ring
      · exact hne

/-- Witness for C1's amended theorem: the concrete sample `exCounts` at
feature point `false`, against the alternative output `y = 1/2`. -/
theorem weights_odds_of_predicted_mc_probability_witness :
    calOutput exCounts false + specProbData exCounts false = 1 ∧
    ((exCounts.nData false : ℝ) * (-Real.log (1 - (calOutput exCounts false : ℝ))) +
        (exCounts.nMC false : ℝ) * (-Real.log (calOutput exCounts false : ℝ)) <
      (exCounts.nData false : ℝ) * (-Real.log (1 - (1/2 : ℝ))) +
        (exCounts.nMC false : ℝ) * (-Real.log (1/2 : ℝ))) := by
  have h := weights_odds_of_predicted_mc_probability.2 Bool exCounts false
    (by norm_num [exCounts]) (by norm_num [exCounts])
  exact ⟨h.1, h.2 (1/2) (by norm_num) (by norm_num) (by norm_num [calOutput, exCounts])⟩

/-- C3 (corrected, counterexample): the calibrated weight is not the density
ratio `P(x | data) / P(x | MC)`.  In `exCounts` the samples have equal size
(4 data, 4 MC events); at feature point `false` the computed weight is 1/3
while `P(false | data) / P(false | MC) = (3/4) / (1/4) = 3`: the weight is
the reciprocal of the claimed ratio. -/
theorem weight_ratio_orientation_counterexample :
    calWeight exCounts false ≠ condData exCounts false / condMC exCounts false := by
  norm_num [calWeight, weight, calOutput, condData, condMC, totalData, totalMC,
    exCounts, Fintype.sum_bool]

/-- C3 (amended): for a perfectly calibrated classifier on fully overlapping
samples, the computed weight equals `P(x | MC) / P(x | data)` (the reciprocal
of the claimed ratio) when the two samples have equal size; weighting each MC
test event by `1 / w` reproduces the data count at every feature point, so the
reweighted MC histogram integral (the sum of the `1 / w` weights) equals the
raw data count. -/
theorem reweighting_matches_data_with_reciprocal_ratio (X : Type) [Fintype X]
    (t : TestCounts X) (hpos : ∀ x, 0 < t.nData x ∧ 0 < t.nMC x) :
    (∀ x, totalData t = totalMC t → calWeight t x = condMC t x / condData t x) ∧
    (∀ x, (t.nMC x : ℚ) * (1 / calWeight t x) = (t.nData x : ℚ)) ∧
    (∑ x, (t.nMC x : ℚ) * (1 / calWeight t x)) = (totalData t : ℚ) := by
  have hmain : ∀ x, (t.nMC x : ℚ) * (1 / calWeight t x) = (t.nData x : ℚ) := by
    intro x
    rw [calWeight_eq_mc_over_data t x (hpos x).1]
    have hdq : (0:ℚ) < (t.nData x : ℚ) := by exact_mod_cast (hpos x).1
    have hmq : (0:ℚ) < (t.nMC x : ℚ) := by exact_mod_cast (hpos x).2
    rw [one_div_div, mul_div_cancel₀ _ (ne_of_gt hmq)]
  refine ⟨?_, hmain, ?_⟩
  · intro x htot
    have hdq : (0:ℚ) < (t.nData x : ℚ) := by exact_mod_cast (hpos x).1
    have htd : 0 < totalData t := by
      calc 0 < t.nData x := (hpos x).1
        _ ≤ totalData t :=
          Finset.single_le_sum (f := fun z => t.nData z)
            (fun i _ => Nat.zero_le _) (Finset.mem_univ x)
    have htdq : (0:ℚ) < (totalData t : ℚ) := by exact_mod_cast htd
    rw [calWeight_eq_mc_over_data t x (hpos x).1, condMC, condData, ← htot]
    rw [div_div_div_cancel_right₀]
    exact ne_of_gt htdq
  · rw [Finset.sum_congr rfl (fun x _ => hmain x), totalData]
    push_cast
    rfl

/-- Witness for C3's amended theorem: in `exCounts` the sum of the `1 / w`
weights over the MC test events equals the raw data count. -/
theorem reweighting_matches_data_witness :
    (∑ x, (exCounts.nMC x : ℚ) * (1 / calWeight exCounts x)) = (totalData exCounts : ℚ) :=
  (reweighting_matches_data_with_reciprocal_ratio Bool exCounts (by decide)).2.2

/-! ## Effective sample size (cell-31: `np.sum(w) ** 2 / np.sum(w ** 2)`) -/

/-- The effective-sample-size statistic of cell-31 for a length-`n` weight
array: `(Σ w)² / Σ (w²)`. -/
def essStat (n : ℕ) (w : Fin n → ℚ) : ℚ := (∑ i, w i) ^ 2 / (∑ i, w i ^ 2)

/-- Helper: the pairwise-difference identity behind the Cauchy-Schwarz bound
on the effective sample size. -/
theorem sum_sq_pairs (n : ℕ) (w : Fin n → ℚ) :
    ∑ i, ∑ j, (w i - w j) ^ 2 =
      2 * ((n : ℚ) * (∑ i, w i ^ 2) - (∑ i, w i) ^ 2) := by
  have expand : ∀ i j : Fin n, (w i - w j) ^ 2 =
      w i ^ 2 - 2 * w i * w j + w j ^ 2 := by
    intro i j; ring
  simp only [expand, Finset.sum_add_distrib, Finset.sum_sub_distrib,
    ← Finset.mul_sum, ← Finset.sum_mul, Finset.sum_const, Finset.card_univ,
    Fintype.card_fin, nsmul_eq_mul]
  ring

/-- C4: for a positive sample count and a weight vector that is not all
zeros, the effective sample size `(Σ w)² / Σ (w²)` is at most the raw sample
count `n`, with equality exactly when all the weights are equal. -/
theorem ess_le_sample_count (n : ℕ) (w : Fin n → ℚ) (hn : 0 < n)
    (hw : ∃ i, w i ≠ 0) :
    essStat n w ≤ (n : ℚ) ∧ (essStat n w = (n : ℚ) ↔ ∀ i j, w i = w j) := by
  obtain ⟨k, hk⟩ := hw
  have hQpos : 0 < ∑ i, w i ^ 2 := by
    refine Finset.sum_pos' (fun i _ => sq_nonneg (w i)) ?_
    exact ⟨k, Finset.mem_univ k,
      lt_of_le_of_ne (sq_nonneg (w k)) (Ne.symm (pow_ne_zero 2 hk))⟩
  have hpairs : 0 ≤ ∑ i, ∑ j, (w i - w j) ^ 2 :=
    Finset.sum_nonneg fun i _ => Finset.sum_nonneg fun j _ => sq_nonneg _
  have hineq : (∑ i, w i) ^ 2 ≤ (n : ℚ) * ∑ i, w i ^ 2 := by
    nlinarith [sum_sq_pairs n w]
  constructor
  · rw [essStat, div_le_iff₀ hQpos]
    linarith
  · rw [essStat, div_eq_iff (ne_of_gt hQpos)]
    constructor
    · intro hEq
      have hzero : ∑ i, ∑ j, (w i - w j) ^ 2 = 0 := by
        rw [sum_sq_pairs]
        linarith
      intro i j
      have h1 := (Finset.sum_eq_zero_iff_of_nonneg
        (fun a _ => Finset.sum_nonneg fun b _ => sq_nonneg (w a - w b))).mp
        hzero i (Finset.mem_univ i)
      have h2 := (Finset.sum_eq_zero_iff_of_nonneg
        (fun b _ => sq_nonneg (w i - w b))).mp h1 j (Finset.mem_univ j)
      have h3 := sq_eq_zero_iff.mp h2
      linarith [sub_eq_zero.mp h3]
    · intro hconst
      have hall : ∀ i, w i = w ⟨0, hn⟩ := fun i => hconst i ⟨0, hn⟩
      have hS : (∑ i, w i) = (n : ℚ) * w ⟨0, hn⟩ := by
        rw [Finset.sum_congr rfl fun i _ => hall i]
        simp [Finset.sum_const, Finset.card_univ, mul_comm]
      have hsq : ∀ i : Fin n, w i ^ 2 = w ⟨0, hn⟩ ^ 2 := fun i => by rw [hall i]
      have hQ : (∑ i, w i ^ 2) = (n : ℚ) * w ⟨0, hn⟩ ^ 2 := by
        rw [Finset.sum_congr rfl fun i _ => hsq i]
        simp [Finset.sum_const, Finset.card_univ, mul_comm]
      rw [hS, hQ]
      ring

/-- Witness for C4: the weight vector `(1, 2)` of length 2 has effective
sample size `9/5 ≤ 2`, and equality fails together with uniformity. -/
theorem ess_le_sample_count_witness :
    essStat 2 (fun i => (i.val : ℚ) + 1) ≤ (2 : ℚ) ∧
    (essStat 2 (fun i => (i.val : ℚ) + 1) = (2 : ℚ) ↔
      ∀ i j : Fin 2, (i.val : ℚ) + 1 = (j.val : ℚ) + 1) :=
  ess_le_sample_count 2 (fun i => (i.val : ℚ) + 1) (by norm_num)
    ⟨0, by norm_num⟩

/-! ## Generation, mixing, assembly, shuffle and split (cells 6-18)

Rows are length-3 rational lists `[var1, var2, label]` (cell-10 builds them
with `np.vstack([...]).T`); the pooled sample is the data rows followed by
the MC rows; `np.random.shuffle` is a Fisher-Yates pass whose uniform draws
come from an oracle `rand`; the split takes the first `N / 2` rows as the
test sample and the rest as the training sample (cell-16). -/

/-- The correlation-inducing linear mix for the data sample, cell-8:
simultaneous assignment `data_var1, data_var2 = 0.7 d1 + 0.3 d2,
0.3 d1 + 0.7 d2`, elementwise over the two sampled arrays. -/
def mixData (v1 v2 : List ℚ) : List ℚ × List ℚ :=
  (List.zipWith (fun a b => 0.7 * a + 0.3 * b) v1 v2,
   List.zipWith (fun a b => 0.3 * a + 0.7 * b) v1 v2)

/-- The correlation-inducing linear mix for the MC sample, cell-8:
`mc_var1, mc_var2 = 0.9 m1 + 0.1 m2, 0.1 m1 + 0.9 m2`. -/
def mixMC (v1 v2 : List ℚ) : List ℚ × List ℚ :=
  (List.zipWith (fun a b => 0.9 * a + 0.1 * b) v1 v2,
   List.zipWith (fun a b => 0.1 * a + 0.9 * b) v1 v2)

/-- Data rows, cell-10: `np.vstack([data_var1, data_var2, np.zeros(NSAMPLE)]).T`
— each row is the two feature values with label 0 appended. -/
def mkDataRows (v1 v2 : List ℚ) : List (List ℚ) :=
  List.zipWith (fun a b => [a, b, 0]) v1 v2

/-- MC rows, cell-10: `np.vstack([mc_var1, mc_var2, np.ones(NSAMPLE)]).T`
— each row is the two feature values with label 1 appended. -/
def mkMcRows (v1 v2 : List ℚ) : List (List ℚ) :=
  List.zipWith (fun a b => [a, b, 1]) v1 v2

/-- The pooled sample, cell-14: `sample = np.vstack([data, mc])`. -/
def assembleSample (d m : List (List ℚ)) : List (List ℚ) := d ++ m

/-- One in-place swap of positions `i` and `j`, the step of numpy's
Fisher-Yates shuffle.  Out-of-range indices leave the list unchanged. -/
def swapIdx {α : Type} (l : List α) (i j : ℕ) : List α :=
  match l[i]?, l[j]? with
  | some a, some b => (l.set i b).set j a
  | _, _ => l

/-- The backward Fisher-Yates pass of `np.random.shuffle`: for `i` from
`n - 1` down to 1, draw `j` uniform on `[0, i]` (the oracle's draw reduced
mod `i + 1`) and swap positions `i` and `j`. -/
def fyAux {α : Type} (rand : ℕ → ℕ) : ℕ → List α → List α
  | 0, l => l
  | i + 1, l => fyAux rand i (swapIdx l (i + 1) (rand (i + 1) % (i + 2)))

/-- `np.random.shuffle(sample)` (cell-14), with the random draws supplied by
the oracle `rand`. -/
def npShuffle {α : Type} (rand : ℕ → ℕ) (l : List α) : List α :=
  fyAux rand (l.length - 1) l

/-- The test half, cell-16: `testing_sample = sample[:int(NSAMPLE / 2)]`. -/
def testing_sample {α : Type} (s : List α) : List α := s.take (s.length / 2)

/-- The training half, cell-16: `training_sample = sample[int(NSAMPLE / 2):]`. -/
def training_sample {α : Type} (s : List α) : List α := s.drop (s.length / 2)

/-- The MC part of the test sample, cell-18:
`testing_sample[testing_sample[:, -1] == 1]`. -/
def filterMC (s : List (List ℚ)) : List (List ℚ) :=
  s.filter (fun r => decide (r.getLast? = some 1))

/-- The data part of the test sample, cell-18:
`testing_sample[testing_sample[:, -1] == 0]`. -/
def filterData (s : List (List ℚ)) : List (List ℚ) :=
  s.filter (fun r => decide (r.getLast? = some 0))

/-- The invariant of C7: a row is the two feature values and a final label
drawn from {0, 1}. -/
def rowOk (r : List ℚ) : Prop :=
  r.length = 3 ∧ (r.getLast? = some 0 ∨ r.getLast? = some 1)

/-- Helper: an indicator of one occurrence is at most the count. -/
theorem count_indicator_le {α : Type} [DecidableEq α] (l : List α) (y x : α)
    (hy : y ∈ l) : (if y == x then 1 else 0) ≤ l.count x := by
  by_cases h : y = x
  · subst h
    simp only [beq_self_eq_true, if_true]
    exact List.count_pos_iff.mpr hy
  · simp [h]

/-- Helper: a swap of two positions is a permutation. -/
theorem swapIdx_perm {α : Type} [DecidableEq α] (l : List α) (i j : ℕ) :
    (swapIdx l i j).Perm l := by
  unfold swapIdx
  split
  next a b heq1 heq2 =>
    obtain ⟨hilen, hia⟩ := List.getElem?_eq_some_iff.mp heq1
    obtain ⟨hjlen, hjb⟩ := List.getElem?_eq_some_iff.mp heq2
    rw [List.perm_iff_count]
    intro x
    have hjlen2 : j < (l.set i b).length := by simpa using hjlen
    rw [List.count_set a x (l.set i b) j hjlen2, List.count_set b x l i hilen]
    by_cases hij : i = j
    · subst hij
      have hab : a = b := by rw [← hia, ← hjb]
      subst hab
      simp only [List.getElem_set_self]
      rw [← hia]
      have hc := count_indicator_le l l[i] x (List.getElem_mem hilen)
      omega
    · rw [List.getElem_set_ne hij, hjb, hia]
      have hca := count_indicator_le l a x (hia ▸ List.getElem_mem hilen)
      have hcb := count_indicator_le l b x (hjb ▸ List.getElem_mem hjlen)
      omega
  next => exact List.Perm.refl l

/-- Helper: the Fisher-Yates pass is a permutation. -/
theorem fyAux_perm {α : Type} [DecidableEq α] (rand : ℕ → ℕ) :
    ∀ (k : ℕ) (l : List α), (fyAux rand k l).Perm l := by
  intro k
  induction k with
  | zero => intro l; exact List.Perm.refl l
  | succ i ih =>
    intro l
    exact (ih _).trans (swapIdx_perm l (i + 1) (rand (i + 1) % (i + 2)))

/-- Helper: the modelled `np.random.shuffle` is a permutation. -/
theorem npShuffle_perm {α : Type} [DecidableEq α] (rand : ℕ → ℕ) (l : List α) :
    (npShuffle rand l).Perm l :=
  fyAux_perm rand (l.length - 1) l

/-- Helper: a member of a labelled zip is a three-entry row ending in the
label. -/
theorem mem_zipWith_row (c : ℚ) :
    ∀ (v1 v2 : List ℚ) (r : List ℚ),
      r ∈ List.zipWith (fun a b => [a, b, c]) v1 v2 → ∃ a b, r = [a, b, c] := by
  intro v1
  induction v1 with
  | nil => intro v2 r h; simp at h
  | cons x xs ih =>
    intro v2 r h
    cases v2 with
    | nil => simp at h
    | cons y ys =>
      rcases List.mem_cons.mp h with h | h
      · exact ⟨x, y, h⟩
      · exact ih ys r h

/-- Helper: every row of the assembled sample satisfies the row invariant. -/
theorem rowOk_of_mem_assembled {v1 v2 w1 w2 : List ℚ} {r : List ℚ}
    (h : r ∈ assembleSample (mkDataRows v1 v2) (mkMcRows w1 w2)) : rowOk r := by
  rcases List.mem_append.mp h with h | h
  · obtain ⟨a, b, rfl⟩ := mem_zipWith_row 0 v1 v2 r h
    exact ⟨rfl, Or.inl (by simp)⟩
  · obtain ⟨a, b, rfl⟩ := mem_zipWith_row 1 w1 w2 r h
    exact ⟨rfl, Or.inr (by simp)⟩

/-- C6: the train/test split is a deterministic function of the (shuffled)
dataset; the test subset is the first `⌊N/2⌋` rows, the training subset the
remaining rows; the two concatenate back to the dataset, their lengths add
up to `N`, and every element's occurrences are split between the two. -/
theorem split_deterministic_partition (α : Type) [DecidableEq α] (s : List α) :
    (∀ t : List α, t = s →
      testing_sample t = testing_sample s ∧ training_sample t = training_sample s) ∧
    testing_sample s = s.take (s.length / 2) ∧
    training_sample s = s.drop (s.length / 2) ∧
    testing_sample s ++ training_sample s = s ∧
    (testing_sample s).length = s.length / 2 ∧
    (training_sample s).length = s.length - s.length / 2 ∧
    (∀ a : α, (testing_sample s).count a + (training_sample s).count a = s.count a) := by
  refine ⟨fun t ht => by rw [ht]; exact ⟨rfl, rfl⟩, rfl, rfl,
    List.take_append_drop _ s, ?_, ?_, ?_⟩
  · show (s.take (s.length / 2)).length = s.length / 2
    rw [List.length_take]
    exact Nat.min_eq_left (Nat.div_le_self _ _)
  · exact List.length_drop _ _
  · intro a
    show (s.take (s.length / 2)).count a + (s.drop (s.length / 2)).count a = s.count a
    conv_rhs => rw [← List.take_append_drop (s.length / 2) s]
    rw [List.count_append]

/-- C7: data rows carry label 0 and MC rows label 1 as their last component;
every row of the shuffled sample, of both split halves and of both label
filters of the test sample has three components and a label in {0, 1}; the
filtered subsets additionally have the selected label. -/
theorem label_and_dimension_invariant (v1 v2 w1 w2 : List ℚ) (rand : ℕ → ℕ) :
    (∀ r ∈ mkDataRows v1 v2, r.length = 3 ∧ r.getLast? = some 0) ∧
    (∀ r ∈ mkMcRows w1 w2, r.length = 3 ∧ r.getLast? = some 1) ∧
    (∀ r ∈ npShuffle rand (assembleSample (mkDataRows v1 v2) (mkMcRows w1 w2)),
      rowOk r) ∧
    (∀ r ∈ testing_sample
        (npShuffle rand (assembleSample (mkDataRows v1 v2) (mkMcRows w1 w2))),
      rowOk r) ∧
    (∀ r ∈ training_sample
        (npShuffle rand (assembleSample (mkDataRows v1 v2) (mkMcRows w1 w2))),
      rowOk r) ∧
    (∀ r ∈ filterMC (testing_sample
        (npShuffle rand (assembleSample (mkDataRows v1 v2) (mkMcRows w1 w2)))),
      rowOk r ∧ r.getLast? = some 1) ∧
    (∀ r ∈ filterData (testing_sample
        (npShuffle rand (assembleSample (mkDataRows v1 v2) (mkMcRows w1 w2)))),
      rowOk r ∧ r.getLast? = some 0) := by
  set s := assembleSample (mkDataRows v1 v2) (mkMcRows w1 w2) with hs
  have hshuffled : ∀ r ∈ npShuffle rand s, rowOk r := fun r hr =>
    rowOk_of_mem_assembled ((npShuffle_perm rand s).mem_iff.mp hr)
  have htest : ∀ r ∈ testing_sample (npShuffle rand s), rowOk r := fun r hr =>
    hshuffled r (List.take_subset _ _ hr)
  refine ⟨?_, ?_, hshuffled, htest, ?_, ?_, ?_⟩
  · intro r hr
    obtain ⟨a, b, rfl⟩ := mem_zipWith_row 0 v1 v2 r hr
    exact ⟨rfl, by simp⟩
  · intro r hr
    obtain ⟨a, b, rfl⟩ := mem_zipWith_row 1 w1 w2 r hr
    exact ⟨rfl, by simp⟩
  · intro r hr
    exact hshuffled r (List.drop_subset _ _ hr)
  · intro r hr
    obtain ⟨hmem, hlab⟩ := List.mem_filter.mp hr
    exact ⟨htest r hmem, of_decide_eq_true hlab⟩
  · intro r hr
    obtain ⟨hmem, hlab⟩ := List.mem_filter.mp hr
    exact ⟨htest r hmem, of_decide_eq_true hlab⟩

/-- C8: the mixing transform is applied elementwise, and because the numpy
assignment is simultaneous, both outputs are built from the original pair:
the data pair `(a, b)` maps to `(0.7a + 0.3b, 0.3a + 0.7b)` and the MC pair
to `(0.9a + 0.1b, 0.1a + 0.9b)`. -/
theorem mixing_transform_elementwise (v1 v2 : List ℚ) (i : ℕ) (a b : ℚ)
    (ha : v1[i]? = some a) (hb : v2[i]? = some b) :
    (mixData v1 v2).1[i]? = some (0.7 * a + 0.3 * b) ∧
    (mixData v1 v2).2[i]? = some (0.3 * a + 0.7 * b) ∧
    (mixMC v1 v2).1[i]? = some (0.9 * a + 0.1 * b) ∧
    (mixMC v1 v2).2[i]? = some (0.1 * a + 0.9 * b) := by
  refine ⟨?_, ?_, ?_, ?_⟩ <;>
    simp [mixData, mixMC, List.getElem?_zipWith, ha, hb]

/-- Witness for C8 at the pair `(1, 10)` in position 0. -/
theorem mixing_transform_elementwise_witness :
    (mixData [1] [10]).1[0]? = some ((0.7 : ℚ) * 1 + 0.3 * 10) ∧
    (mixData [1] [10]).2[0]? = some ((0.3 : ℚ) * 1 + 0.7 * 10) ∧
    (mixMC [1] [10]).1[0]? = some ((0.9 : ℚ) * 1 + 0.1 * 10) ∧
    (mixMC [1] [10]).2[0]? = some ((0.1 : ℚ) * 1 + 0.9 * 10) :=
  mixing_transform_elementwise [1] [10] 0 1 10 rfl rfl

/-- C9: shuffling the assembled sample neither alters nor drops a row: the
result is a permutation of the data rows followed by the MC rows (the same
multiset of rows), and its size is the data count plus the MC count,
`2 * NSAMPLE` when both inputs have `NSAMPLE` rows. -/
theorem shuffled_sample_is_permutation (rand : ℕ → ℕ) (v1 v2 w1 w2 : List ℚ)
    (n : ℕ) (h1 : v1.length = n) (h2 : v2.length = n) (h3 : w1.length = n)
    (h4 : w2.length = n) :
    (npShuffle rand (assembleSample (mkDataRows v1 v2) (mkMcRows w1 w2))).Perm
      (mkDataRows v1 v2 ++ mkMcRows w1 w2) ∧
    (npShuffle rand (assembleSample (mkDataRows v1 v2) (mkMcRows w1 w2))).length
      = 2 * n := by
  have hperm := npShuffle_perm rand (assembleSample (mkDataRows v1 v2) (mkMcRows w1 w2))
  refine ⟨hperm, ?_⟩
  rw [hperm.length_eq]
  simp [assembleSample, mkDataRows, mkMcRows, h1, h2, h3, h4]
  omega

/-- Witness for C9 on one data row and one MC row with the identity oracle. -/
theorem shuffled_sample_is_permutation_witness :
    (npShuffle (fun k => k)
        (assembleSample (mkDataRows [1] [2]) (mkMcRows [3] [4]))).Perm
      (mkDataRows [1] [2] ++ mkMcRows [3] [4]) ∧
    (npShuffle (fun k => k)
        (assembleSample (mkDataRows [1] [2]) (mkMcRows [3] [4]))).length = 2 * 1 :=
  shuffled_sample_is_permutation (fun k => k) [1] [2] [3] [4] 1 rfl rfl rfl rfl

end HSF
